import Mathlib

/-!
Verification of the claude-code-tracer session log query and cache layer.

The frontend components (`Pagination.tsx`, the project dashboard's
`SessionRow`) are embedded directly from the TypeScript source.  The backend
services (`services/cache.py`, `services/database.py`, `services/queries.py`,
`services/log_parser.py`, `routers/sessions.py`) are not present in the
repository snapshot; the definitions for those components are modelled from
the specification (and the code fragments quoted in the repository's planning
documents), as indicated in each doc comment.
-/

namespace Tracer

/-! ## Frontend: Pagination.tsx `getPageNumbers` -/

/-- A rendered entry of the pagination widget: either a concrete page number
or the literal ellipsis separator. -/
inductive PageItem where
  | page : Nat → PageItem
  | dots : PageItem
deriving DecidableEq

/-- Embedding of `getPageNumbers` from
`frontend/src/components/common/Pagination.tsx` (lines 69-85).  `total <= 7`
returns all pages; otherwise one of three window shapes around `current`. -/
def getPageNumbers (current total : Nat) : List PageItem :=
  if total ≤ 7 then
    (List.range' 1 total).map PageItem.page
  else if current ≤ 3 then
    [.page 1, .page 2, .page 3, .page 4, .dots, .page total]
  else if total - 2 ≤ current then
    [.page 1, .dots, .page (total - 3), .page (total - 2), .page (total - 1), .page total]
  else
    [.page 1, .dots, .page (current - 1), .page current, .page (current + 1), .dots, .page total]

/-- The numeric entries of a pagination row, in display order. -/
def numericEntries (items : List PageItem) : List Nat :=
  items.filterMap (fun it => match it with | .page n => some n | .dots => none)

/-! ## Frontend: ProjectDashboard `SessionRow` cache-hit rate -/

/-- Token counters of a session summary as consumed by `SessionRow`. -/
structure TokenUsage where
  input_tokens : ℤ
  output_tokens : ℤ
  cache_creation_input_tokens : ℤ
  cache_read_input_tokens : ℤ

/-- Embedding of the cache-hit-rate computation in `SessionRow`
(project dashboard, lines 194-201): guarded division, expressed over ℚ. -/
def cacheHitRate (t : TokenUsage) : ℚ :=
  let totalCacheTokens : ℚ := (t.cache_creation_input_tokens : ℚ) + (t.cache_read_input_tokens : ℚ)
  let totalInputTokens : ℚ := (t.input_tokens : ℚ) + totalCacheTokens
  if 0 < totalInputTokens then (t.cache_read_input_tokens : ℚ) / totalInputTokens * 100 else 0

/-! ## Backend metrics aggregation (`get_metrics`) -/

/-- Token usage payload of an assistant record (`message.usage`). -/
structure Usage where
  input_tokens : Nat
  output_tokens : Nat
deriving DecidableEq

/-- A log record as seen by the aggregate metrics query: its `type` column
and optional `message.usage` payload. -/
structure LogEntry where
  type : String
  usage : Option Usage
deriving DecidableEq

/-- Result of `get_metrics` for a session. -/
structure SessionMetrics where
  input_tokens : Nat
  output_tokens : Nat
  message_count : Nat
deriving DecidableEq

/-- Modelled from the spec: `get_metrics` (backend `services/log_parser.py`,
absent from the snapshot) follows the aggregate query of
`improvement_plan.md` lines 182-197 — `SUM(COALESCE(message.usage.*, 0))`
over rows with `type = 'assistant'`, while `message_count` counts every
record of the session log. -/
def get_metrics (rows : List LogEntry) : SessionMetrics :=
  { input_tokens :=
      (rows.filter (fun r => r.type == "assistant")).foldr
        (fun r acc => (match r.usage with | some u => u.input_tokens | none => 0) + acc) 0
    output_tokens :=
      (rows.filter (fun r => r.type == "assistant")).foldr
        (fun r acc => (match r.usage with | some u => u.output_tokens | none => 0) + acc) 0
    message_count := rows.length }

/-- The five-row fixture of the end-to-end metrics scenario: three assistant
rows with (input, output) tokens (10,20), (5,8), (0,0) and two user rows. -/
def metricsFixture : List LogEntry :=
  [ { type := "assistant", usage := some { input_tokens := 10, output_tokens := 20 } },
    { type := "assistant", usage := some { input_tokens := 5, output_tokens := 8 } },
    { type := "assistant", usage := some { input_tokens := 0, output_tokens := 0 } },
    { type := "user", usage := none },
    { type := "user", usage := none } ]

/-! ## Result Cache (`services/cache.py`) -/

/-- A stored cache entry for one (resource key, file path): the value and the
file mtime it was computed under. -/
structure CacheEntry (V : Type) where
  mtime : Nat
  value : V
deriving DecidableEq

/-- Modelled from the spec: `get_or_compute` of the Result Cache
(`services/cache.py`, absent from the snapshot).  It reads the current mtime
of the file; a stored entry is reused exactly when its recorded mtime equals
the current one, otherwise the value is recomputed from the current file
content and stored under the current mtime, replacing the prior entry. -/
def get_or_compute {γ V : Type} (curMtime : Nat) (content : γ) (f : γ → V)
    (cache : Option (CacheEntry V)) : V × CacheEntry V :=
  match cache with
  | some e => if e.mtime = curMtime then (e.value, e) else (f content, ⟨curMtime, f content⟩)
  | none => (f content, ⟨curMtime, f content⟩)

/-! ## View Manager (`services/database.py`) -/

/-- An entry of the session-view registry `_session_views`: backing path,
the view name, creation time, last-access time and the file mtime recorded
at creation. -/
structure ViewEntry where
  path : Nat
  viewName : Nat
  created : Nat
  lastAccess : Nat
  mtime : Nat
deriving DecidableEq

/-- The filesystem as a finite map from path to current mtime; a missing
path means the backing file no longer exists. -/
def fsLookup (fs : List (Nat × Nat)) (p : Nat) : Option Nat :=
  (fs.find? (fun q => q.1 == p)).map (fun q => q.2)

/-- The view TTL used by the cleanup sweep (300 seconds). -/
def SESSION_VIEW_TTL : Nat := 300

/-- Modelled from the spec: `get_or_create_session_view` / `acquire` of the
View Manager (`services/database.py`, absent from the snapshot).  A present
entry whose recorded mtime equals the file's current mtime is reused with its
last-access time set to now; a stale entry is replaced by a freshly created
view; a missing file fails. -/
def acquire (fs : List (Nat × Nat)) (now path freshView : Nat)
    (entries : List ViewEntry) : Option (Nat × List ViewEntry) :=
  match fsLookup fs path with
  | none => none
  | some m =>
    match entries.find? (fun e => e.path == path) with
    | some e =>
      if e.mtime = m then
        some (e.viewName,
          entries.map (fun e2 => if e2.path == path then { e2 with lastAccess := now } else e2))
      else
        some (freshView,
          entries.map (fun e2 => if e2.path == path then ⟨path, freshView, now, now, m⟩ else e2))
    | none => some (freshView, ⟨path, freshView, now, now, m⟩ :: entries)

/-- Modelled from the spec: `cleanup_stale_views` / `sweep` of the View
Manager — removes entries whose last access is more than the TTL ago or
whose backing file no longer exists. -/
def sweep (fs : List (Nat × Nat)) (now : Nat) (entries : List ViewEntry) : List ViewEntry :=
  entries.filter (fun e =>
    decide (now - e.lastAccess ≤ SESSION_VIEW_TTL) && (fsLookup fs e.path).isSome)

/-! ## Query Builder: comprehensive message query and pre-filtering -/

/-- A raw record of a session log as consumed by the per-kind branches of
the comprehensive message query. -/
structure LogRow where
  uuid : Nat
  timestamp : Nat
  type : String
  toolName : String
  isError : Bool
deriving DecidableEq

/-- A projected message row as produced by each branch of the union. -/
structure Msg where
  uuid : Nat
  timestamp : Nat
  type : String
  tool_names : String
  has_error : Bool
deriving DecidableEq

/-- The shape-specific projection shared by the branches: it preserves the
filter-relevant columns (type, tool names, error flag). -/
def toMsg (r : LogRow) : Msg :=
  ⟨r.uuid, r.timestamp, r.type, r.toolName, r.isError⟩

/-- The declarative filter portion of a `list_messages` request. -/
structure MsgFilter where
  type_filter : Option String
  tool_filter : Option String
  error_only : Bool

/-- Evaluation of a filter against a projected message row. -/
def matchesMsg (f : MsgFilter) (m : Msg) : Bool :=
  (match f.type_filter with | some t => m.type == t | none => true) &&
  (match f.tool_filter with | some t => m.tool_names == t | none => true) &&
  (!f.error_only || m.has_error)

/-- Evaluation of the same filter against a raw log record (the columns a
pushed-down predicate references inside a branch). -/
def matchesRow (f : MsgFilter) (r : LogRow) : Bool :=
  (match f.type_filter with | some t => r.type == t | none => true) &&
  (match f.tool_filter with | some t => r.toolName == t | none => true) &&
  (!f.error_only || r.isError)

/-- Modelled from the spec: one per-kind branch of
`MESSAGES_COMPREHENSIVE_QUERY` (`services/queries.py`, absent from the
snapshot): select the records of that message kind and project them. -/
def branchRows (k : String) (rows : List LogRow) : List Msg :=
  (rows.filter (fun r => r.type == k)).map toMsg

/-- Modelled from the spec: the `UNION ALL` of the four per-kind branches of
the comprehensive message query. -/
def unionAllBranches (rows : List LogRow) : List Msg :=
  branchRows "assistant" rows ++ branchRows "user" rows ++
  branchRows "tool_result" rows ++ branchRows "subagent" rows

/-- Modelled from the spec: the baseline query shape — filters applied after
the union in an outer wrapper. -/
def postFilteredQuery (f : MsgFilter) (rows : List LogRow) : List Msg :=
  (unionAllBranches rows).filter (matchesMsg f)

/-- Modelled from the spec: one branch with the filter predicate injected
inside the branch, before the union (Query Pre-filtering, Priority 3.3). -/
def branchPre (k : String) (f : MsgFilter) (rows : List LogRow) : List Msg :=
  (rows.filter (fun r => r.type == k && matchesRow f r)).map toMsg

/-- Modelled from the spec: the pushed-down query — every branch applies the
filter before the branches are combined with the union. -/
def preFilteredQuery (f : MsgFilter) (rows : List LogRow) : List Msg :=
  branchPre "assistant" f rows ++ branchPre "user" f rows ++
  branchPre "tool_result" f rows ++ branchPre "subagent" f rows

/-! ## Keyset pagination (`list_messages`) -/

/-- The keyset of a message row: its sort timestamp and tie-break id. -/
abbrev MsgKey := Nat × Nat

/-- The strict lexicographic comparison `(timestamp, uuid) > (cursor_ts,
cursor_uuid)` used by the keyset `WHERE` clause, as a boolean predicate
`keyLtb a b = (a < b)`. -/
def keyLtb (a b : MsgKey) : Bool :=
  a.1 < b.1 || (a.1 == b.1 && a.2 < b.2)

/-- The rows of the ordered comprehensive query that lie strictly after the
cursor (all rows when no cursor is given). -/
def afterCursor (rows : List MsgKey) : Option MsgKey → List MsgKey
  | none => rows
  | some c => rows.filter (fun r => keyLtb c r)

/-- Modelled from the spec: `list_messages` over the ordered row set of a
session (`routers/sessions.py`, absent from the snapshot).  `rows` is the
result of the comprehensive query ordered by `(timestamp, uuid)`; the
request fetches `limit + 1` rows past the cursor, returns at most `limit` of
them, sets `has_more` when the extra row exists and derives `next_cursor`
from the last returned row. -/
def list_messages (rows : List MsgKey) (cursor : Option MsgKey) (limit : Nat) :
    List MsgKey × Option MsgKey × Bool :=
  let fetched := (afterCursor rows cursor).take (limit + 1)
  let hasMore := decide (limit < fetched.length)
  let page := fetched.take limit
  (page, if hasMore then page.getLast? else none, hasMore)

/-- Drive `list_messages` to exhaustion, concatenating the pages: start
without a cursor and feed each returned `next_cursor` back while `has_more`
is set.  `fuel` bounds the recursion. -/
def paginateGo (rows : List MsgKey) (limit : Nat) : Nat → Option MsgKey → List MsgKey
  | 0, _ => []
  | fuel + 1, cursor =>
    let res := list_messages rows cursor limit
    if res.2.2 then res.1 ++ paginateGo rows limit fuel res.2.1 else res.1

/-- All pages of a session, concatenated in request order. -/
def paginateAll (rows : List MsgKey) (limit : Nat) : List MsgKey :=
  paginateGo rows limit (rows.length + 1) none

/-! ## Cursor Codec: base64 of `timestamp|uuid` -/

/-- base64 bit packing of a byte sequence (values < 256) into sextets
(values < 64): three bytes map to four sextets, with the standard short
forms for a one- or two-byte tail. -/
def b64EncodeBytes : List Nat → List Nat
  | [] => []
  | [a] => [a / 4, a % 4 * 16]
  | [a, b] => [a / 4, a % 4 * 16 + b / 16, b % 16 * 4]
  | a :: b :: c :: rest =>
    a / 4 :: (a % 4 * 16 + b / 16) :: (b % 16 * 4 + c / 64) :: c % 64 :: b64EncodeBytes rest

/-- base64 bit unpacking of a sextet sequence back into bytes; a sequence
whose length is congruent to 1 mod 4 has no preimage and is rejected. -/
def b64DecodeBytes : List Nat → Option (List Nat)
  | [] => some []
  | [_] => none
  | [s0, s1] => some [s0 * 4 + s1 / 16]
  | [s0, s1, s2] => some [s0 * 4 + s1 / 16, s1 % 16 * 16 + s2 / 4]
  | s0 :: s1 :: s2 :: s3 :: rest =>
    (b64DecodeBytes rest).map
      (fun tail => (s0 * 4 + s1 / 16) :: (s1 % 16 * 16 + s2 / 4) :: (s2 % 4 * 64 + s3) :: tail)

/-- The standard base64 alphabet. -/
def b64Alphabet : List Char :=
  ['A', 'B', 'C', 'D', 'E', 'F', 'G', 'H', 'I', 'J', 'K', 'L', 'M',
   'N', 'O', 'P', 'Q', 'R', 'S', 'T', 'U', 'V', 'W', 'X', 'Y', 'Z',
   'a', 'b', 'c', 'd', 'e', 'f', 'g', 'h', 'i', 'j', 'k', 'l', 'm',
   'n', 'o', 'p', 'q', 'r', 's', 't', 'u', 'v', 'w', 'x', 'y', 'z',
   '0', '1', '2', '3', '4', '5', '6', '7', '8', '9', '+', '/']

/-- The alphabet letter of a sextet. -/
def sextetToChar (s : Nat) : Char := b64Alphabet.getD s 'A'

/-- The sextet of an alphabet letter; a character outside the alphabet is
rejected. -/
def charToSextet (ch : Char) : Option Nat :=
  b64Alphabet.findIdx? (fun c2 => c2 == ch)

/-- Apply a fallible decoding step to every element; any failure rejects the
whole sequence. -/
def traverseOption {α β : Type} (f : α → Option β) : List α → Option (List β)
  | [] => some []
  | a :: rest =>
    match f a, traverseOption f rest with
    | some b, some bs => some (b :: bs)
    | _, _ => none

/-- Split a decoded cursor payload at its first `|` separator; a payload
with no separator does not carry both fields and is rejected. -/
def splitFirstPipe : List Char → Option (List Char × List Char)
  | [] => none
  | ch :: rest =>
    if ch = '|' then some ([], rest)
    else (splitFirstPipe rest).map (fun p => (ch :: p.1, p.2))

/-- Modelled from the spec: `encode_cursor` (backend cursor utilities,
absent from the snapshot) — base64 of the `timestamp|uuid` payload, per the
README snippet and the Priority 3.1 design. -/
def encode_cursor (ts uuid : List Char) : List Char :=
  (b64EncodeBytes ((ts ++ '|' :: uuid).map Char.toNat)).map sextetToChar

/-- Modelled from the spec: `decode_cursor` — base64-decode the token and
split it into the timestamp and tie-break id fields; any token that does not
decode or lacks the separator yields `InvalidCursor`, modelled as `none`. -/
def decode_cursor (tok : List Char) : Option (List Char × List Char) :=
  (traverseOption charToSextet tok).bind (fun ss =>
    (b64DecodeBytes ss).bind (fun bytes =>
      splitFirstPipe (bytes.map Char.ofNat)))

/-- The byte-level payload a token stands for, as characters: the base64
decoding of the token without the field split. -/
def tokenContent (tok : List Char) : Option (List Char) :=
  (traverseOption charToSextet tok).bind (fun ss =>
    (b64DecodeBytes ss).bind (fun bytes =>
      some (bytes.map Char.ofNat)))

end Tracer

namespace Tracer

/-- C9: for 1 ≤ current ≤ total, `getPageNumbers` returns exactly
[1, …, total] when total ≤ 7; when total > 7 the result contains page 1,
the current page and the last page, and its numeric entries are strictly
increasing. -/
theorem getPageNumbers_spec (current total : Nat)
    (h1 : 1 ≤ current) (h2 : current ≤ total) :
    (total ≤ 7 → getPageNumbers current total = (List.range' 1 total).map PageItem.page) ∧
    (7 < total →
      PageItem.page 1 ∈ getPageNumbers current total ∧
      PageItem.page current ∈ getPageNumbers current total ∧
      PageItem.page total ∈ getPageNumbers current total ∧
      (numericEntries (getPageNumbers current total)).Chain' (· < ·)) := by
  constructor
  · intro hle
    simp [getPageNumbers, hle]
  · intro hgt
    have hle : ¬ total ≤ 7 := by omega
    by_cases hc3 : current ≤ 3
    · have h1m : current = 1 ∨ current = 2 ∨ current = 3 := by omega
      refine ⟨?_, ?_, ?_, ?_⟩ <;>
        simp [getPageNumbers, hle, hc3, numericEntries] <;>
        omega
    · by_cases hhi : total - 2 ≤ current
      · have hm : current = total - 2 ∨ current = total - 1 ∨ current = total := by omega
        refine ⟨?_, ?_, ?_, ?_⟩ <;>
          (simp [getPageNumbers, hle, hc3, hhi, numericEntries]; try omega)
      · refine ⟨?_, ?_, ?_, ?_⟩ <;>
          (simp [getPageNumbers, hle, hc3, hhi, numericEntries]; try omega)

/-- Witness for C9 at current = 5, total = 20. -/
theorem getPageNumbers_spec_witness :
    (20 ≤ 7 → getPageNumbers 5 20 = (List.range' 1 20).map PageItem.page) ∧
    (7 < 20 →
      PageItem.page 1 ∈ getPageNumbers 5 20 ∧
      PageItem.page 5 ∈ getPageNumbers 5 20 ∧
      PageItem.page 20 ∈ getPageNumbers 5 20 ∧
      (numericEntries (getPageNumbers 5 20)).Chain' (· < ·)) :=
  getPageNumbers_spec 5 20 (by decide) (by decide)

/-- C10: with non-negative token counters the cache-hit rate equals
`cache_read / (input + cache_creation + cache_read) * 100` when that
denominator is positive, equals 0 when the denominator is zero, and always
lies in [0, 100]. -/
theorem cacheHitRate_spec (t : TokenUsage)
    (hi : 0 ≤ t.input_tokens) (hc : 0 ≤ t.cache_creation_input_tokens)
    (hr : 0 ≤ t.cache_read_input_tokens) :
    (0 < (t.input_tokens : ℚ) + (t.cache_creation_input_tokens : ℚ) + (t.cache_read_input_tokens : ℚ) →
      cacheHitRate t = (t.cache_read_input_tokens : ℚ) /
        ((t.input_tokens : ℚ) + (t.cache_creation_input_tokens : ℚ) + (t.cache_read_input_tokens : ℚ)) * 100) ∧
    ((t.input_tokens : ℚ) + (t.cache_creation_input_tokens : ℚ) + (t.cache_read_input_tokens : ℚ) = 0 →
      cacheHitRate t = 0) ∧
    0 ≤ cacheHitRate t ∧ cacheHitRate t ≤ 100 := by
  have hi' : (0 : ℚ) ≤ (t.input_tokens : ℚ) := by exact_mod_cast hi
  have hc' : (0 : ℚ) ≤ (t.cache_creation_input_tokens : ℚ) := by exact_mod_cast hc
  have hr' : (0 : ℚ) ≤ (t.cache_read_input_tokens : ℚ) := by exact_mod_cast hr
  set r : ℚ := (t.cache_read_input_tokens : ℚ) with hrdef
  set d : ℚ := (t.input_tokens : ℚ) + ((t.cache_creation_input_tokens : ℚ) + r) with hddef
  have hassoc : (t.input_tokens : ℚ) + (t.cache_creation_input_tokens : ℚ) + r = d := by
    rw [hddef]; ring
  have hd0 : 0 ≤ d := by positivity
  have hrate : cacheHitRate t = if 0 < d then r / d * 100 else 0 := by
    simp only [cacheHitRate, hddef, hrdef]
  refine ⟨?_, ?_, ?_, ?_⟩
  · intro hpos
    rw [hassoc] at hpos
    rw [hrate, if_pos hpos, hassoc]
  · intro hzero
    rw [hassoc] at hzero
    have : ¬ 0 < d := by rw [hzero]; exact lt_irrefl 0
    rw [hrate, if_neg this]
  · rw [hrate]
    by_cases hpos : 0 < d
    · rw [if_pos hpos]; positivity
    · rw [if_neg hpos]
  · rw [hrate]
    by_cases hpos : 0 < d
    · rw [if_pos hpos]
      have hrd : r ≤ d := by rw [hddef]; linarith
      have : r / d ≤ 1 := by
        rw [div_le_one hpos]; exact hrd
      linarith
    · rw [if_neg hpos]; norm_num

/-- Witness for C10 at counters (input, output, creation, read) = (10, 0, 30, 60). -/
theorem cacheHitRate_spec_witness :
    (0 < ((10 : ℤ) : ℚ) + ((30 : ℤ) : ℚ) + ((60 : ℤ) : ℚ) →
      cacheHitRate ⟨10, 0, 30, 60⟩ = ((60 : ℤ) : ℚ) / (((10 : ℤ) : ℚ) + ((30 : ℤ) : ℚ) + ((60 : ℤ) : ℚ)) * 100) ∧
    (((10 : ℤ) : ℚ) + ((30 : ℤ) : ℚ) + ((60 : ℤ) : ℚ) = 0 → cacheHitRate ⟨10, 0, 30, 60⟩ = 0) ∧
    0 ≤ cacheHitRate ⟨10, 0, 30, 60⟩ ∧ cacheHitRate ⟨10, 0, 30, 60⟩ ≤ 100 :=
  cacheHitRate_spec ⟨10, 0, 30, 60⟩ (by decide) (by decide) (by decide)

/-- C2: an entry is served exactly under a matching mtime — reading under the
stored mtime returns the stored value, every call stores the current mtime,
and once the mtime has changed from m0 to m1 the next call recomputes from
the current file content rather than reusing the m0 result. -/
theorem cache_mtime_coherence {γ V : Type} (m0 m1 : Nat) (c0 c1 : γ) (f : γ → V)
    (cache : Option (CacheEntry V)) (e : CacheEntry V)
    (hne : m1 ≠ m0) (he : e.mtime = m0) :
    (get_or_compute m0 c0 f (some e)).1 = e.value ∧
    (get_or_compute m0 c0 f cache).2.mtime = m0 ∧
    (get_or_compute m1 c1 f (some (get_or_compute m0 c0 f cache).2)).1 = f c1 := by
  have hm : (get_or_compute m0 c0 f cache).2.mtime = m0 := by
    cases cache with
    | none => rfl
    | some e2 =>
      by_cases h : e2.mtime = m0 <;> simp [get_or_compute, h]
  refine ⟨?_, hm, ?_⟩
  · simp [get_or_compute, he]
  · have h2 : (get_or_compute m0 c0 f cache).2.mtime ≠ m1 := by rw [hm]; omega
    conv_lhs => rw [get_or_compute]
    rw [if_neg h2]

/-- Witness for C2: a cold cache, mtimes 1 then 2. -/
theorem cache_mtime_coherence_witness :
    (get_or_compute 1 10 (fun x => x + 1) (some ⟨1, 99⟩)).1 = (99 : Nat) ∧
    (get_or_compute 1 10 (fun x => x + 1) (none : Option (CacheEntry Nat))).2.mtime = 1 ∧
    (get_or_compute 2 20 (fun x => x + 1)
      (some (get_or_compute 1 10 (fun x => x + 1) (none : Option (CacheEntry Nat))).2)).1 = 20 + 1 :=
  cache_mtime_coherence 1 2 10 20 (fun x => x + 1) none ⟨1, 99⟩ (by decide) (by decide)

/-- C7: acquiring a path whose registered view matches the file's current
mtime reuses the view and stamps that entry's last access with the current
time; a record survives the sweep exactly when its last access is within the
TTL and its backing file still exists. -/
theorem view_manager_spec (fs : List (Nat × Nat)) (now path freshView : Nat)
    (entries : List ViewEntry) (e e2 : ViewEntry)
    (hfind : entries.find? (fun x => x.path == path) = some e)
    (hmt : fsLookup fs path = some e.mtime) :
    acquire fs now path freshView entries =
      some (e.viewName,
        entries.map (fun x => if x.path == path then { x with lastAccess := now } else x)) ∧
    (e2 ∈ sweep fs now entries ↔
      e2 ∈ entries ∧ now - e2.lastAccess ≤ SESSION_VIEW_TTL ∧ (fsLookup fs e2.path).isSome) := by
  constructor
  · simp [acquire, hmt, hfind]
  · simp [sweep, List.mem_filter, and_assoc]

/-- Witness for C7: one registered view over a one-file filesystem. -/
theorem view_manager_spec_witness :
    acquire [(7, 3)] 100 7 9 [⟨7, 42, 0, 5, 3⟩] =
      some ((⟨7, 42, 0, 5, 3⟩ : ViewEntry).viewName,
        [⟨7, 42, 0, 5, 3⟩].map
          (fun x => if x.path == 7 then { x with lastAccess := 100 } else x)) ∧
    ((⟨7, 42, 0, 5, 3⟩ : ViewEntry) ∈ sweep [(7, 3)] 100 [⟨7, 42, 0, 5, 3⟩] ↔
      (⟨7, 42, 0, 5, 3⟩ : ViewEntry) ∈ [(⟨7, 42, 0, 5, 3⟩ : ViewEntry)] ∧
      100 - (⟨7, 42, 0, 5, 3⟩ : ViewEntry).lastAccess ≤ SESSION_VIEW_TTL ∧
      (fsLookup [(7, 3)] (⟨7, 42, 0, 5, 3⟩ : ViewEntry).path).isSome) :=
  view_manager_spec [(7, 3)] 100 7 9 [⟨7, 42, 0, 5, 3⟩] ⟨7, 42, 0, 5, 3⟩ ⟨7, 42, 0, 5, 3⟩
    (by decide) (by decide)

/-- The filter evaluated after projection agrees with the filter evaluated on
the raw record, because the projection preserves every filtered column. -/
theorem matchesMsg_toMsg (f : MsgFilter) (r : LogRow) :
    matchesMsg f (toMsg r) = matchesRow f r := rfl

/-- A branch with the filter injected before the union equals the unfiltered
branch filtered afterwards. -/
theorem branchPre_eq_filter_branch (k : String) (f : MsgFilter) (rows : List LogRow) :
    branchPre k f rows = (branchRows k rows).filter (matchesMsg f) := by
  induction rows with
  | nil => rfl
  | cons r rest ih =>
    simp only [branchPre, branchRows] at ih ⊢
    cases h1 : (r.type == k) <;> cases h2 : matchesRow f r <;>
      simp [List.filter_cons, h1, h2, ih, matchesMsg_toMsg]

/-- C5: for every filter and every log, the pushed-down (per-branch)
comprehensive query returns the same rows as filtering the unioned result
post-hoc. -/
theorem pre_filter_equivalence (f : MsgFilter) (rows : List LogRow) :
    preFilteredQuery f rows = postFilteredQuery f rows := by
  simp [preFilteredQuery, postFilteredQuery, unionAllBranches, List.filter_append,
    branchPre_eq_filter_branch]

/-- C6: the page is cut from the `limit + 1` fetched rows, at most `limit`
rows are returned, and `has_more` is set exactly when strictly more than
`limit` rows match the request — no count query needed. -/
theorem list_messages_limit_spec (rows : List MsgKey) (cursor : Option MsgKey) (limit : Nat) :
    (list_messages rows cursor limit).1 = ((afterCursor rows cursor).take (limit + 1)).take limit ∧
    (list_messages rows cursor limit).1.length ≤ limit ∧
    ((list_messages rows cursor limit).2.2 = true ↔ limit < (afterCursor rows cursor).length) := by
  refine ⟨rfl, ?_, ?_⟩
  · simp only [list_messages, List.length_take]
    omega
  · simp only [list_messages, List.length_take, decide_eq_true_eq]
    omega

/-- The keyset order is transitive. -/
theorem keyLtb_trans {a b c : MsgKey} (h1 : keyLtb a b = true) (h2 : keyLtb b c = true) :
    keyLtb a c = true := by
  simp only [keyLtb, Bool.or_eq_true, Bool.and_eq_true, decide_eq_true_eq, beq_iff_eq] at *
  omega

/-- The keyset order is asymmetric. -/
theorem keyLtb_asymm {a b : MsgKey} (h : keyLtb a b = true) : keyLtb b a = false := by
  rw [Bool.eq_false_iff]
  intro hba
  simp only [keyLtb, Bool.or_eq_true, Bool.and_eq_true, decide_eq_true_eq, beq_iff_eq] at h hba
  omega

/-- In a strictly sorted list, the rows strictly after an element are exactly
the suffix following that element. -/
theorem filter_after_mem_sorted (l1 l2 : List MsgKey) (c : MsgKey)
    (h : (l1 ++ c :: l2).Pairwise (fun a b => keyLtb a b = true)) :
    (l1 ++ c :: l2).filter (fun r => keyLtb c r) = l2 := by
  rw [List.pairwise_append] at h
  obtain ⟨_, h2, h12⟩ := h
  rw [List.pairwise_cons] at h2
  obtain ⟨hc2, _⟩ := h2
  rw [List.filter_append]
  have e1 : l1.filter (fun r => keyLtb c r) = [] := by
    rw [List.filter_eq_nil_iff]
    intro x hx
    have hxc : keyLtb x c = true := h12 x hx c (List.mem_cons_self c l2)
    simp [keyLtb_asymm hxc]
  have hcc : keyLtb c c = false := by
    rw [Bool.eq_false_iff]
    intro hcc
    simp only [keyLtb, Bool.or_eq_true, Bool.and_eq_true, decide_eq_true_eq, beq_iff_eq] at hcc
    omega
  have e2 : (c :: l2).filter (fun r => keyLtb c r) = l2 := by
    rw [List.filter_cons]
    simp only [hcc, Bool.false_eq_true, if_false]
    exact List.filter_eq_self.mpr hc2
  rw [e1, e2, List.nil_append]

/-- Filtering past a later cursor absorbs filtering past an earlier one. -/
theorem filter_keyLtb_absorb (rows : List MsgKey) {c c2 : MsgKey} (h : keyLtb c c2 = true) :
    (rows.filter (fun r => keyLtb c r)).filter (fun r => keyLtb c2 r) =
      rows.filter (fun r => keyLtb c2 r) := by
  induction rows with
  | nil => rfl
  | cons r rest ih =>
    by_cases h3 : keyLtb c r = true
    · rw [List.filter_cons, if_pos (by rw [h3])]
      by_cases h2 : keyLtb c2 r = true
      · rw [List.filter_cons, if_pos (by rw [h2]), List.filter_cons, if_pos (by rw [h2]), ih]
      · have h2f : keyLtb c2 r = false := by rw [Bool.eq_false_iff]; exact h2
        rw [List.filter_cons, if_neg (by rw [h2f]; exact Bool.false_ne_true),
          List.filter_cons, if_neg (by rw [h2f]; exact Bool.false_ne_true), ih]
    · have h2f : keyLtb c2 r = false := by
        rw [Bool.eq_false_iff]
        intro hh
        exact h3 (keyLtb_trans h hh)
      have h3f : keyLtb c r = false := by rw [Bool.eq_false_iff]; exact h3
      rw [List.filter_cons, if_neg (by rw [h3f]; exact Bool.false_ne_true),
        List.filter_cons, if_neg (by rw [h2f]; exact Bool.false_ne_true), ih]

/-- Driving `list_messages` from any cursor whose remaining row set is `rem`
yields exactly `rem`: every page step hands back precisely the rows strictly
after the page's last row. -/
theorem paginateGo_correct (limit : Nat) (hl : 0 < limit) :
    ∀ (fuel : Nat) (rows rem : List MsgKey) (cursor : Option MsgKey),
      rows.Pairwise (fun a b => keyLtb a b = true) →
      afterCursor rows cursor = rem →
      rem.length < fuel →
      paginateGo rows limit fuel cursor = rem := by
  intro fuel
  induction fuel with
  | zero =>
    intro rows rem cursor _ _ hlen
    omega
  | succ fuel ih =>
    intro rows rem cursor hp hafter hlen
    have hremp : rem.Pairwise (fun a b => keyLtb a b = true) := by
      cases cursor with
      | none => rw [← hafter]; exact hp
      | some c => rw [← hafter]; exact hp.filter _
    by_cases hcase : rem.length ≤ limit
    · have hfetch : (afterCursor rows cursor).take (limit + 1) = rem := by
        rw [hafter]
        exact List.take_of_length_le (by omega)
      have hstep : list_messages rows cursor limit = (rem, none, false) := by
        simp only [list_messages, hfetch]
        have h1 : ¬ limit < rem.length := by omega
        simp [h1, List.take_of_length_le hcase]
      rw [paginateGo, hstep]
      simp
    · push_neg at hcase
      have hne : rem.take limit ≠ [] := by
        intro hnil
        have h0 : (rem.take limit).length = 0 := by rw [hnil]; rfl
        rw [List.length_take] at h0
        omega
      obtain ⟨l1, g, htake⟩ : ∃ l1 g, rem.take limit = l1 ++ [g] := by
        rcases List.eq_nil_or_concat (rem.take limit) with h | ⟨l1, g, h⟩
        · exact absurd h hne
        · exact ⟨l1, g, by rw [h, List.concat_eq_append]⟩
      have hlastg : (rem.take limit).getLast? = some g := by
        rw [htake]
        exact List.getLast?_concat l1
      have hstep : list_messages rows cursor limit = (rem.take limit, some g, true) := by
        simp only [list_messages, hafter, List.take_take]
        have h1 : min limit (limit + 1) = limit := by omega
        rw [h1]
        have h2 : limit < (rem.take (limit + 1)).length := by
          rw [List.length_take]
          omega
        simp [h2, hlastg]
        omega
      have hsplit : rem = l1 ++ g :: rem.drop limit := by
        calc rem = rem.take limit ++ rem.drop limit := (List.take_append_drop limit rem).symm
        _ = (l1 ++ [g]) ++ rem.drop limit := by rw [htake]
        _ = l1 ++ g :: rem.drop limit := by rw [List.append_assoc]; rfl
      have hfilter_rem : rem.filter (fun r => keyLtb g r) = rem.drop limit := by
        conv_lhs => rw [hsplit]
        exact filter_after_mem_sorted _ _ _ (hsplit ▸ hremp)
      have hnextfilter : afterCursor rows (some g) = rem.drop limit := by
        cases cursor with
        | none =>
          have hrows : rows = rem := hafter
          show rows.filter _ = _
          rw [hrows]
          exact hfilter_rem
        | some c =>
          have hgmem : g ∈ rem := by
            have hg1 : g ∈ rem.take limit := by rw [htake]; simp
            exact List.take_subset limit rem hg1
          have hcc2 : keyLtb c g = true := by
            rw [← hafter] at hgmem
            simp only [afterCursor, List.mem_filter] at hgmem
            exact hgmem.2
          have hrem : rows.filter (fun r => keyLtb c r) = rem := hafter
          show rows.filter _ = _
          rw [← hfilter_rem, ← hrem]
          exact (filter_keyLtb_absorb rows hcc2).symm
      have hrec := ih rows (rem.drop limit) (some g) hp hnextfilter
        (by rw [List.length_drop]; omega)
      rw [paginateGo, hstep]
      show rem.take limit ++ paginateGo rows limit fuel (some g) = rem
      rw [hrec, List.take_append_drop]

/-- C1: over an unmodified session whose ordered row set has pairwise
distinct (timestamp, tie-break id) keys, feeding each `next_cursor` back
until `has_more` clears yields pages that concatenate to exactly the full
row set — no gaps, no duplicates, every row exactly once. -/
theorem list_messages_pagination_exact (rows : List MsgKey) (limit : Nat)
    (hsorted : rows.Pairwise (fun a b => keyLtb a b = true)) (hl : 0 < limit) :
    paginateAll rows limit = rows :=
  paginateGo_correct limit hl (rows.length + 1) rows rows none hsorted rfl (by omega)

/-- Witness for C1: 5 rows, page size 2, 3 pages. -/
theorem list_messages_pagination_exact_witness :
    ([((1 : Nat), (1 : Nat)), (1, 2), (2, 1), (3, 5), (3, 7)] : List MsgKey).Pairwise
      (fun a b => keyLtb a b = true) ∧
    paginateAll [(1, 1), (1, 2), (2, 1), (3, 5), (3, 7)] 2 =
      [(1, 1), (1, 2), (2, 1), (3, 5), (3, 7)] :=
  ⟨by decide, list_messages_pagination_exact _ 2 (by decide) (by decide)⟩

/-- Encoding bytes below 256 produces sextets below 64. -/
theorem b64EncodeBytes_lt : ∀ (l : List Nat), (∀ x ∈ l, x < 256) →
    ∀ s ∈ b64EncodeBytes l, s < 64
  | [], _ => by simp [b64EncodeBytes]
  | [a], h => by
    have ha := h a (by simp)
    intro s hs
    simp only [b64EncodeBytes, List.mem_cons, List.not_mem_nil, or_false] at hs
    rcases hs with rfl | rfl <;> omega
  | [a, b], h => by
    have ha := h a (by simp)
    have hb := h b (by simp)
    intro s hs
    simp only [b64EncodeBytes, List.mem_cons, List.not_mem_nil, or_false] at hs
    rcases hs with rfl | rfl | rfl <;> omega
  | a :: b :: c :: rest, h => by
    have ha := h a (by simp)
    have hb := h b (by simp)
    have hc := h c (by simp)
    have ih := b64EncodeBytes_lt rest (fun x hx => h x (by simp [hx]))
    intro s hs
    simp only [b64EncodeBytes, List.mem_cons] at hs
    rcases hs with rfl | rfl | rfl | rfl | hs
    · omega
    · omega
    · omega
    · omega
    · exact ih s hs

/-- base64 bit packing round-trips: unpacking the sextets of a byte
sequence recovers exactly the bytes. -/
theorem b64DecodeBytes_encode : ∀ (l : List Nat), (∀ x ∈ l, x < 256) →
    b64DecodeBytes (b64EncodeBytes l) = some l
  | [], _ => by simp [b64EncodeBytes, b64DecodeBytes]
  | [a], h => by
    have ha := h a (by simp)
    simp only [b64EncodeBytes, b64DecodeBytes, Option.some.injEq, List.cons.injEq, and_true]
    omega
  | [a, b], h => by
    have ha := h a (by simp)
    have hb := h b (by simp)
    simp only [b64EncodeBytes, b64DecodeBytes, Option.some.injEq, List.cons.injEq, and_true]
    constructor <;> omega
  | a :: b :: c :: rest, h => by
    have ha := h a (by simp)
    have hb := h b (by simp)
    have hc := h c (by simp)
    have ih := b64DecodeBytes_encode rest (fun x hx => h x (by simp [hx]))
    simp only [b64EncodeBytes, b64DecodeBytes, ih, Option.map_some', Option.some.injEq,
      List.cons.injEq, and_true]
    refine ⟨?_, ?_, ?_⟩ <;> omega

/-- Each of the 64 sextets decodes back from its alphabet letter. -/
theorem charToSextet_sextetToChar : ∀ s : Fin 64, charToSextet (sextetToChar s.val) = some s.val := by
  decide

/-- Character-level base64 round trip over a whole sextet sequence. -/
theorem traverseOption_sextets (ss : List Nat) (h : ∀ s ∈ ss, s < 64) :
    traverseOption charToSextet (ss.map sextetToChar) = some ss := by
  induction ss with
  | nil => rfl
  | cons s rest ih =>
    have h1 : charToSextet (sextetToChar s) = some s :=
      charToSextet_sextetToChar ⟨s, h s (by simp)⟩
    have h2 := ih (fun x hx => h x (by simp [hx]))
    simp [traverseOption, h1, h2]

/-- Byte values below 256 survive the Char round trip. -/
theorem map_ofNat_toNat (l : List Char) : (l.map Char.toNat).map Char.ofNat = l := by
  rw [List.map_map]
  have h1 : Char.ofNat ∘ Char.toNat = id := by
    funext c
    exact Char.ofNat_toNat c
  rw [h1, List.map_id]

/-- Splitting the canonical `ts|uuid` payload recovers the two fields when
the timestamp carries no separator. -/
theorem splitFirstPipe_append (ts uuid : List Char) (h : '|' ∉ ts) :
    splitFirstPipe (ts ++ '|' :: uuid) = some (ts, uuid) := by
  induction ts with
  | nil => simp [splitFirstPipe]
  | cons c rest ih =>
    have hc : c ≠ '|' := by
      intro he
      exact h (by simp [he])
    have h2 : '|' ∉ rest := fun hx => h (by simp [hx])
    simp [splitFirstPipe, hc, ih h2]

/-- Whenever the split succeeds, the payload really was the two returned
fields around a separator, and the first field carries no separator. -/
theorem splitFirstPipe_sound : ∀ (l a b : List Char),
    splitFirstPipe l = some (a, b) → l = a ++ '|' :: b ∧ '|' ∉ a := by
  intro l
  induction l with
  | nil =>
    intro a b h
    simp [splitFirstPipe] at h
  | cons c rest ih =>
    intro a b h
    by_cases hc : c = '|'
    · rw [splitFirstPipe, if_pos hc] at h
      simp only [Option.some.injEq, Prod.mk.injEq] at h
      obtain ⟨ha, hb⟩ := h
      subst ha
      subst hb
      subst hc
      exact ⟨rfl, by simp⟩
    · rw [splitFirstPipe, if_neg hc] at h
      cases hsp : splitFirstPipe rest with
      | none =>
        rw [hsp] at h
        simp at h
      | some p =>
        rw [hsp] at h
        simp only [Option.map_some', Option.some.injEq, Prod.mk.injEq] at h
        obtain ⟨hp1, hp2⟩ := h
        obtain ⟨hl, hnp⟩ := ih p.1 p.2 hsp
        subst hp1
        subst hp2
        constructor
        · rw [hl]
          rfl
        · intro hm
          rcases List.mem_cons.mp hm with hm1 | hm2
          · exact hc hm1.symm
          · exact hnp hm2

/-- C3: decoding the encoded cursor of a (timestamp, id) pair returns
exactly the original pair, for every pair of byte strings whose timestamp
carries no `|` separator. -/
theorem cursor_roundtrip (ts uuid : List Char)
    (hts : '|' ∉ ts) (h1 : ∀ c ∈ ts, c.toNat < 256) (h2 : ∀ c ∈ uuid, c.toNat < 256) :
    decode_cursor (encode_cursor ts uuid) = some (ts, uuid) := by
  have hbytes : ∀ x ∈ (ts ++ '|' :: uuid).map Char.toNat, x < 256 := by
    intro x hx
    rw [List.mem_map] at hx
    obtain ⟨c, hc, rfl⟩ := hx
    rcases List.mem_append.mp hc with hin | hin
    · exact h1 c hin
    · rcases List.mem_cons.mp hin with rfl | hin2
      · decide
      · exact h2 c hin2
  have hsex := b64EncodeBytes_lt _ hbytes
  rw [decode_cursor, encode_cursor, traverseOption_sextets _ hsex, Option.some_bind,
    b64DecodeBytes_encode _ hbytes, Option.some_bind, map_ofNat_toNat]
  exact splitFirstPipe_append ts uuid hts

/-- Witness for C3 on a concrete (timestamp, uuid) pair. -/
theorem cursor_roundtrip_witness :
    decode_cursor (encode_cursor
        ['2', '0', '2', '4', '-', '0', '1', 'T', '0', '9'] ['a', 'b', 'c', '1']) =
      some (['2', '0', '2', '4', '-', '0', '1', 'T', '0', '9'], ['a', 'b', 'c', '1']) :=
  cursor_roundtrip ['2', '0', '2', '4', '-', '0', '1', 'T', '0', '9'] ['a', 'b', 'c', '1']
    (by decide) (by decide) (by decide)

/-- C4: decoding is total — every token either yields `InvalidCursor`
(`none`) or a pair that is exactly the two fields around the separator of
the token's decoded payload; a token whose payload lacks either field is
never silently defaulted into a pair. -/
theorem decode_cursor_rejects_malformed (tok : List Char) :
    decode_cursor tok = none ∨
    ∃ ts uuid, decode_cursor tok = some (ts, uuid) ∧
      tokenContent tok = some (ts ++ '|' :: uuid) ∧ '|' ∉ ts := by
  rw [decode_cursor, tokenContent]
  cases h1 : traverseOption charToSextet tok with
  | none =>
    rw [Option.none_bind]
    exact Or.inl rfl
  | some ss =>
    rw [Option.some_bind]
    cases h2 : b64DecodeBytes ss with
    | none =>
      rw [Option.none_bind]
      exact Or.inl rfl
    | some bytes =>
      rw [Option.some_bind]
      cases h3 : splitFirstPipe (bytes.map Char.ofNat) with
      | none => exact Or.inl rfl
      | some p =>
        right
        obtain ⟨hsplit, hpipe⟩ := splitFirstPipe_sound _ p.1 p.2 h3
        exact ⟨p.1, p.2, rfl,
          by rw [Option.some_bind, h2, Option.some_bind, ← hsplit], hpipe⟩

/-- C8: on the fixture of three assistant rows (10/20, 5/8, 0/0) and two user
rows, `get_metrics` returns input 15, output 28, count 5; after appending an
assistant row with 1/1 tokens it returns input 16, output 29, count 6. -/
theorem get_metrics_fixture_spec :
    get_metrics metricsFixture =
      { input_tokens := 15, output_tokens := 28, message_count := 5 } ∧
    get_metrics (metricsFixture ++
        [{ type := "assistant", usage := some { input_tokens := 1, output_tokens := 1 } }]) =
      { input_tokens := 16, output_tokens := 29, message_count := 6 } := by
  constructor <;> rfl

end Tracer
